import Mathlib

/-
Verification of the `mat` statically-sized matrix library.

The library evaluates matrix expressions lazily: arithmetic operators build
an expression tree of `Transpose`, `Sum` and `Product` nodes over dense
row-major `Mat` storage, and the checked accessor `get` triggers a recursive
on-demand evaluation.  The Rust source keeps the dimensions in the type
system (typenum naturals); the shallow embedding below carries them as
construction-time fields of each value and models the type-level equality
constraints of the operator `impl`s as decidable construction guards, as the
design notes of the library prescribe for targets without type-level
naturals.  Machine integers are modelled by `Int`/generic scalars (the
library defers all overflow behaviour to the element type); a panic is
modelled by `Option.none`; an unchecked (potentially undefined) buffer read
is modelled by `List.getD` with the `default` fallback.
-/

namespace MatVerify

/-- Dense statically allocated matrix, models `Mat<T, NROWS, NCOLS>`:
a row-major `buffer` of `nrows * ncols` elements; the type-level dimensions
`NROWS`/`NCOLS` become the fields `nrows`/`ncols`. -/
structure Mat (α : Type) where
  nrows : Nat
  ncols : Nat
  buffer : List α
deriving DecidableEq

/-- Models `<&Mat as UnsafeGet>::unsafe_get`: unchecked read of the
row-major buffer at linear offset `r * NCOLS + c`.  A read out of range is
undefined behaviour in the source; the model returns `default` there. -/
def Mat.uncheckedGet [Inhabited α] (m : Mat α) (r c : Nat) : α :=
  m.buffer.getD (r * m.ncols + c) default

/-- Row view into a `Mat`, models `Row<T, NCOLS>`: the `ncols` elements of
one row of the underlying buffer. -/
structure Row (α : Type) where
  ncols : Nat
  buffer : List α
deriving DecidableEq

/-- Models `<Row as ops::Index<usize>>::index`: `assert!(c < NCOLS)` (panic
is `none`), then an unchecked read of the row buffer at `c`. -/
def Row.index [Inhabited α] (row : Row α) (c : Nat) : Option α :=
  if c < row.ncols then some (row.buffer.getD c default) else none

/-- Models `<Mat as ops::Index<usize>>::index`: `assert!(r < NROWS)` (panic
is `none`), then reinterpret the `NCOLS` buffer elements starting at offset
`r * NCOLS` as a `Row` view. -/
def Mat.index (m : Mat α) (r : Nat) : Option (Row α) :=
  if r < m.nrows then
    some ⟨m.ncols, (m.buffer.drop (r * m.ncols)).take m.ncols⟩
  else none

/-- Expression tree of the algebra engine: dense leaves (`Mat`) composed by
the `Transpose`, `Sum` and `Product` node types. -/
inductive MExpr (α : Type) where
  | mat : Mat α → MExpr α
  | transpose : MExpr α → MExpr α
  | sum : MExpr α → MExpr α → MExpr α
  | product : MExpr α → MExpr α → MExpr α
deriving DecidableEq

/-- Models `Matrix::size` together with the associated `NROWS`/`NCOLS` types
of each `Matrix` impl: `Mat` reports its own dimensions, `Transpose<M>`
swaps the dimensions of its operand (`NROWS = M::NCOLS`,
`NCOLS = M::NROWS`), `Sum<L, R>` reports the dimensions of `L`, and
`Product<L, R>` reports `(L::NROWS, R::NCOLS)`. -/
def MExpr.size : MExpr α → Nat × Nat
  | .mat m => (m.nrows, m.ncols)
  | .transpose e => ((MExpr.size e).2, (MExpr.size e).1)
  | .sum l _ => MExpr.size l
  | .product l r => ((MExpr.size l).1, (MExpr.size r).2)

/-- Models `Matrix::nrows`: first component of `size`. -/
def MExpr.nrows (e : MExpr α) : Nat := e.size.1

/-- Models `Matrix::ncols`: second component of `size`. -/
def MExpr.ncols (e : MExpr α) : Nat := e.size.2

/-- Models the `UnsafeGet::unsafe_get` impl of every node type:
a dense leaf reads its buffer at `r * NCOLS + c`; `Transpose` swaps the
indices; `Sum` adds the two operand elements; `Product` runs
`let mut sum = T::zero(); for i in 0..self.l.ncols() { sum = sum +
l.unsafe_get(r, i) * r.unsafe_get(i, c) }` — a left fold over
`0..l.ncols()` starting from zero. -/
def MExpr.uncheckedGet [Inhabited α] [Add α] [Mul α] [Zero α] :
    MExpr α → Nat → Nat → α
  | .mat m, r, c => m.uncheckedGet r c
  | .transpose e, r, c => MExpr.uncheckedGet e c r
  | .sum l r', r, c => MExpr.uncheckedGet l r c + MExpr.uncheckedGet r' r c
  | .product l r', r, c =>
      (List.range l.ncols).foldl
        (fun s i => s + MExpr.uncheckedGet l r i * MExpr.uncheckedGet r' i c) 0

/-- Models `Matrix::get`: `assert!(r < self.nrows() && c < self.ncols())`
(panic is `none`), then forward to the unchecked accessor. -/
def MExpr.get [Inhabited α] [Add α] [Mul α] [Zero α]
    (e : MExpr α) (r c : Nat) : Option α :=
  if r < e.nrows ∧ c < e.ncols then some (e.uncheckedGet r c) else none

/-- Models `traits::Transpose::t`: wrap the value in a `Transpose` node
(always legal, no validation). -/
def MExpr.t (e : MExpr α) : MExpr α := .transpose e

/-- Models the `ops::Mul` impls (`&Mat * R`, `Transpose<L> * R`): the trait
bound `R: Matrix<NROWS = Self::NCOLS>` requires the column count of the
left operand to equal the row count of the right; the type-level equality is
modelled as a construction guard, so an ill-dimensioned product is never
built. -/
def MExpr.mul (l r : MExpr α) : Option (MExpr α) :=
  if l.ncols = r.nrows then some (.product l r) else none

/-- Models the `ops::Add` impl for `Product<L, R>`: the trait bound
`RHS: Matrix<NROWS = L::NROWS, NCOLS = R::NCOLS>` requires both operands of
a `Sum` to have identical dimensions; modelled as a construction guard. -/
def MExpr.add (l r : MExpr α) : Option (MExpr α) :=
  if l.nrows = r.nrows ∧ l.ncols = r.ncols then some (.sum l r) else none

/-- Well-formedness of a tree: the buffer of every dense leaf holds exactly
`nrows * ncols` elements (the `Mat` invariant guaranteed by the literal
construction utility), and every node satisfies the dimension constraint of
the operator impl that builds it. -/
def MExpr.wf : MExpr α → Bool
  | .mat m => m.buffer.length == m.nrows * m.ncols
  | .transpose e => MExpr.wf e
  | .sum l r => MExpr.wf l && MExpr.wf r
      && (l.nrows == r.nrows) && (l.ncols == r.ncols)
  | .product l r => MExpr.wf l && MExpr.wf r && (l.ncols == r.nrows)

/-- The set of unchecked leaf reads performed by `uncheckedGet e r c`,
mirroring its recursion: the access to a dense leaf is in bounds of the
leaf buffer, a `Transpose` swaps the indices, a `Sum` accesses both
operands at `(r, c)`, and a `Product` accesses `l` at `(r, i)` and `r'` at
`(i, c)` for every `i` in `0..l.ncols()`. -/
def MExpr.safeAccess : MExpr α → Nat → Nat → Bool
  | .mat m, r, c => decide (r * m.ncols + c < m.buffer.length)
  | .transpose e, r, c => MExpr.safeAccess e c r
  | .sum l r', r, c => MExpr.safeAccess l r c && MExpr.safeAccess r' r c
  | .product l r', r, c =>
      (List.range l.ncols).all
        (fun i => MExpr.safeAccess l r i && MExpr.safeAccess r' i c)

/-- Strict variant of the evaluator in which an out-of-bounds leaf read is
an error (`none`) instead of the modelled `default` value: it returns
`some` exactly when the recursive evaluation touches no memory outside the
dense buffers. -/
def MExpr.uncheckedGetOpt [Add α] [Mul α] [Zero α] :
    MExpr α → Nat → Nat → Option α
  | .mat m, r, c => m.buffer[r * m.ncols + c]?
  | .transpose e, r, c => MExpr.uncheckedGetOpt e c r
  | .sum l r', r, c =>
      (MExpr.uncheckedGetOpt l r c).bind fun x =>
        (MExpr.uncheckedGetOpt r' r c).map fun y => x + y
  | .product l r', r, c =>
      (List.range l.ncols).foldl
        (fun acc i => acc.bind fun s =>
          (MExpr.uncheckedGetOpt l r i).bind fun x =>
            (MExpr.uncheckedGetOpt r' i c).map fun y => s + x * y)
        (some 0)

@[simp] theorem MExpr.nrows_mat (m : Mat α) : (MExpr.mat m).nrows = m.nrows := rfl

@[simp] theorem MExpr.ncols_mat (m : Mat α) : (MExpr.mat m).ncols = m.ncols := rfl

@[simp] theorem MExpr.nrows_transpose (e : MExpr α) :
    (MExpr.transpose e).nrows = e.ncols := rfl

@[simp] theorem MExpr.ncols_transpose (e : MExpr α) :
    (MExpr.transpose e).ncols = e.nrows := rfl

@[simp] theorem MExpr.nrows_sum (l r : MExpr α) :
    (MExpr.sum l r).nrows = l.nrows := rfl

@[simp] theorem MExpr.ncols_sum (l r : MExpr α) :
    (MExpr.sum l r).ncols = l.ncols := rfl

@[simp] theorem MExpr.nrows_product (l r : MExpr α) :
    (MExpr.product l r).nrows = l.nrows := rfl

@[simp] theorem MExpr.ncols_product (l r : MExpr α) :
    (MExpr.product l r).ncols = r.ncols := rfl

/-- The 2-by-3 matrix [[1,2,3],[3,4,5]] of the library doc example. -/
def matA : Mat Int := ⟨2, 3, [1, 2, 3, 3, 4, 5]⟩

/-- The 3-by-2 matrix [[1,2],[3,4],[5,6]] of the library doc example. -/
def matB : Mat Int := ⟨3, 2, [1, 2, 3, 4, 5, 6]⟩

/-- A 2-by-2 identity matrix, dimension-incompatible with `matA * ·`. -/
def matC : Mat Int := ⟨2, 2, [1, 0, 0, 1]⟩

/-- A row index `r < m` and a column index `c < n` give a row-major offset
inside a buffer of `m * n` elements. -/
theorem rowMajor_offset_lt {r c m n : Nat} (hr : r < m) (hc : c < n) :
    r * n + c < m * n := by
  have h1 : r * n + c < r * n + n := Nat.add_lt_add_left hc _
  have h2 : r * n + n = (r + 1) * n := by ring
  have h3 : (r + 1) * n ≤ m * n := Nat.mul_le_mul_right n (Nat.succ_le_of_lt hr)
  rw [h2] at h1
  exact Nat.lt_of_lt_of_le h1 h3

/-- C3: `get(r, c)` fails fatally (returns `none`, the model of a panic)
exactly when `r ≥ rowCount()` or `c ≥ colCount()`, and on an in-bounds
index it forwards to the unchecked accessor, producing its value. -/
theorem get_panic_iff_oob [Inhabited α] [Add α] [Mul α] [Zero α]
    (e : MExpr α) (r c : Nat) :
    (MExpr.get e r c = none ↔ e.nrows ≤ r ∨ e.ncols ≤ c) ∧
    (r < e.nrows → c < e.ncols →
      MExpr.get e r c = some (e.uncheckedGet r c)) := by
  refine ⟨?_, ?_⟩
  · by_cases h : r < e.nrows ∧ c < e.ncols
    · simp only [MExpr.get, if_pos h]
      simp only [reduceCtorEq, false_iff]
      omega
    · simp only [MExpr.get, if_neg h, true_iff]
      omega
  · intro hr hc
    simp [MExpr.get, hr, hc]

/-- Witness for C3 at a concrete input: `matA` is 2-by-3, so `get 0 1`
is in bounds and returns the element 2. -/
theorem get_panic_iff_oob_witness :
    MExpr.get (.mat matA) 0 1 = some 2 ∧ MExpr.get (.mat matA) 0 3 = none := by
  have h1 := (get_panic_iff_oob (α := Int) (.mat matA) 0 1).2 (by decide) (by decide)
  have h2 := (get_panic_iff_oob (α := Int) (.mat matA) 0 3).1.mpr (by decide)
  exact ⟨by rw [h1]; rfl, h2⟩

/-- C4: transposing twice restores every element: for in-bounds `(r, c)`,
`A.t().t().get(r, c) == A.get(r, c)`, the double transpose being the
structurally distinct depth-2 tree `Transpose (Transpose A)`. -/
theorem double_transpose_get [Inhabited α] [Add α] [Mul α] [Zero α]
    (A : MExpr α) (r c : Nat) (_hr : r < A.nrows) (_hc : c < A.ncols) :
    MExpr.get (A.t.t) r c = MExpr.get A r c := rfl

/-- Witness for C4 at a concrete input: the 2-by-3 matrix of the doc
example at position (1, 2). -/
theorem double_transpose_get_witness :
    MExpr.get ((MExpr.mat matA).t.t) 1 2 = MExpr.get (.mat matA) 1 2 :=
  double_transpose_get (.mat matA) 1 2 (by decide) (by decide)

/-- C5: on a dense matrix whose buffer holds exactly `nrows * ncols`
elements, the checked `get` at in-bounds `(r, c)` returns exactly the
buffer element at row-major linear offset `r * ncols + c`. -/
theorem mat_get_rowMajor [Inhabited α] [Add α] [Mul α] [Zero α]
    (m : Mat α) (r c : Nat)
    (hwf : m.buffer.length = m.nrows * m.ncols)
    (hr : r < m.nrows) (hc : c < m.ncols) :
    MExpr.get (.mat m) r c = m.buffer[r * m.ncols + c]? := by
  have hlt : r * m.ncols + c < m.buffer.length := by
    rw [hwf]; exact rowMajor_offset_lt hr hc
  rw [List.getElem?_eq_getElem hlt]
  simp [MExpr.get, hr, hc, MExpr.uncheckedGet, Mat.uncheckedGet,
    List.getD_eq_getElem?_getD, List.getElem?_eq_getElem hlt]

/-- Witness for C5 at a concrete input: `matA` at (1, 2) is buffer element
`1 * 3 + 2 = 5`, the value 5. -/
theorem mat_get_rowMajor_witness :
    MExpr.get (.mat matA) 1 2 = matA.buffer[1 * matA.ncols + 2]? ∧
    MExpr.get (.mat matA) 1 2 = some 5 := by
  have h := mat_get_rowMajor matA 1 2 rfl (by decide) (by decide)
  exact ⟨h, by rw [h]; rfl⟩

/-- Claim C6: the element access of a `Sum` node is exactly the element of
the left operand plus the element of the right operand at the same
position: whenever the checked accesses of both operands succeed with
values `x` and `y`, the checked access of the sum node succeeds with
`x + y`. -/
theorem sum_get_pointwise [Inhabited α] [Add α] [Mul α] [Zero α]
    (l r' : MExpr α) (r c : Nat) (x y : α)
    (hl : MExpr.get l r c = some x) (hr : MExpr.get r' r c = some y) :
    MExpr.get (.sum l r') r c = some (x + y) := by
  by_cases hbl : r < l.nrows ∧ c < l.ncols
  · by_cases hbr : r < r'.nrows ∧ c < r'.ncols
    · have hx : l.uncheckedGet r c = x := by
        simpa [MExpr.get, hbl] using hl
      have hy : r'.uncheckedGet r c = y := by
        simpa [MExpr.get, hbr] using hr
      simp [MExpr.get, hbl.1, hbl.2, MExpr.uncheckedGet, hx, hy]
    · simp [MExpr.get, hbr] at hr
  · simp [MExpr.get, hbl] at hl

/-- Witness for C6 at a concrete input: `matA + matB.t()` (both 2-by-3) at
(0, 0) is `1 + 1 = 2`. -/
theorem sum_get_pointwise_witness :
    MExpr.get (.sum (.mat matA) (MExpr.mat matB).t) 0 0 = some 2 :=
  sum_get_pointwise (.mat matA) (MExpr.mat matB).t 0 0 1 1 (by decide) (by decide)

/-- C7: sum construction is commutative element-wise: for same-shaped
operands and any valid index, `(A+B).get(r, c) == (B+A).get(r, c)`. -/
theorem sum_get_comm [Inhabited α] [AddCommMonoid α] [Mul α]
    (A B : MExpr α) (r c : Nat)
    (h1 : A.nrows = B.nrows) (h2 : A.ncols = B.ncols)
    (hr : r < A.nrows) (hc : c < A.ncols) :
    MExpr.get (.sum A B) r c = MExpr.get (.sum B A) r c := by
  have hr' : r < B.nrows := h1 ▸ hr
  have hc' : c < B.ncols := h2 ▸ hc
  simp [MExpr.get, hr, hc, hr', hc', MExpr.uncheckedGet, add_comm]

/-- Witness for C7 at a concrete input: `matA` and `matB.t()` are both
2-by-3; the two sum orders agree at (1, 1). -/
theorem sum_get_comm_witness :
    MExpr.get (.sum (.mat matA) (MExpr.mat matB).t) 1 1
      = MExpr.get (.sum (MExpr.mat matB).t (.mat matA)) 1 1 :=
  sum_get_comm (.mat matA) (MExpr.mat matB).t 1 1 rfl rfl
    (by decide) (by decide)

/-- A left fold of successive additions over `0..k` starting from zero is
the sum over `Finset.range k`. -/
theorem foldl_range_sum [AddCommMonoid α] (f : Nat → α) (k : Nat) :
    (List.range k).foldl (fun s i => s + f i) 0 = ∑ i ∈ Finset.range k, f i := by
  induction k with
  | zero => simp
  | succ k ih =>
      rw [List.range_succ, List.foldl_append, ih, Finset.sum_range_succ]
      rfl

/-- Claim C1: the element of a `Product` node is the dot product of a row
of the left operand and a column of the right operand: the evaluation is
the left fold over `i` in `0..left.ncols()` (the loop bound is the column
count of the left operand) starting from the zero value, and it equals
`Σ_{i<k} left(r, i) * right(i, c)`. -/
theorem product_get_dot [Inhabited α] [AddCommMonoid α] [Mul α]
    (L R : MExpr α) (m k n r c : Nat)
    (hL : L.size = (m, k)) (hR : R.size = (k, n))
    (hr : r < m) (hc : c < n) :
    MExpr.get (.product L R) r c
      = some ((List.range L.ncols).foldl
          (fun s i => s + L.uncheckedGet r i * R.uncheckedGet i c) 0) ∧
    MExpr.get (.product L R) r c
      = some (∑ i ∈ Finset.range k, L.uncheckedGet r i * R.uncheckedGet i c) := by
  have hm : L.nrows = m := by rw [MExpr.nrows, hL]
  have hk : L.ncols = k := by rw [MExpr.ncols, hL]
  have hn : R.ncols = n := by rw [MExpr.ncols, hR]
  have hfold : MExpr.get (.product L R) r c
      = some ((List.range L.ncols).foldl
          (fun s i => s + L.uncheckedGet r i * R.uncheckedGet i c) 0) := by
    simp [MExpr.get, hm, hn, hr, hc, MExpr.uncheckedGet]
  refine ⟨hfold, ?_⟩
  rw [hfold, hk, foldl_range_sum]

/-- Witness for C1: the doc example `(matA * matB).get(0, 0) == 22`
(`1*1 + 2*3 + 3*5`). -/
theorem product_get_dot_witness :
    MExpr.get (.product (.mat matA) (.mat matB)) 0 0 = some 22 := by
  have h := (product_get_dot (.mat matA) (.mat matB) 2 3 2 0 0 rfl rfl
    (by decide) (by decide)).2
  rw [h]
  decide

/-- C2: the dimension guards of the operator impls: a `Product` is
constructible exactly when the column count of the left operand equals the
row count of the right operand, a `Sum` exactly when the dimensions of both
operands are identical; every constructed `Product` reports dimensions
(rows of the left, columns of the right); and construction from well-formed
operands only ever
yields well-formed trees, so a mismatched tree never reaches evaluation. -/
theorem construction_dimension_guards (l r : MExpr α) :
    ((MExpr.mul l r).isSome = true ↔ l.ncols = r.nrows) ∧
    ((MExpr.add l r).isSome = true ↔ l.nrows = r.nrows ∧ l.ncols = r.ncols) ∧
    (∀ p, MExpr.mul l r = some p → p.nrows = l.nrows ∧ p.ncols = r.ncols) ∧
    (∀ p, MExpr.mul l r = some p → l.wf = true → r.wf = true →
      p.wf = true) ∧
    (∀ p, MExpr.add l r = some p → l.wf = true → r.wf = true →
      p.wf = true) := by
  refine ⟨?_, ?_, ?_, ?_, ?_⟩
  · by_cases h : l.ncols = r.nrows <;> simp [MExpr.mul, h]
  · by_cases h : l.nrows = r.nrows ∧ l.ncols = r.ncols <;>
      simp [MExpr.add, h]
  · intro p hp
    by_cases h : l.ncols = r.nrows
    · simp only [MExpr.mul, if_pos h, Option.some.injEq] at hp
      subst hp
      simp
    · simp [MExpr.mul, if_neg h] at hp
  · intro p hp hl hr
    by_cases h : l.ncols = r.nrows
    · simp only [MExpr.mul, if_pos h, Option.some.injEq] at hp
      subst hp
      simp [MExpr.wf, hl, hr, h]
    · simp [MExpr.mul, if_neg h] at hp
  · intro p hp hl hr
    by_cases h : l.nrows = r.nrows ∧ l.ncols = r.ncols
    · simp only [MExpr.add, if_pos h, Option.some.injEq] at hp
      subst hp
      simp [MExpr.wf, hl, hr, h.1, h.2]
    · simp [MExpr.add, if_neg h] at hp

/-- Witness for C2 at concrete inputs: `matA * matB` (3 = 3) is
constructible and well formed, while `matA * matC` (3 ≠ 2) is rejected at
construction. -/
theorem construction_dimension_guards_witness :
    (MExpr.mul (.mat matA) (.mat matB)).isSome = true ∧
    (MExpr.mul (.mat matA) (.mat matC)).isSome = false ∧
    MExpr.wf (.product (.mat matA) (.mat matB)) = true := by
  have hAB := construction_dimension_guards (MExpr.mat matA) (.mat matB)
  have hAC := construction_dimension_guards (MExpr.mat matA) (.mat matC)
  refine ⟨hAB.1.mpr (by decide), ?_, ?_⟩
  · have : ¬ (MExpr.mul (MExpr.mat matA) (.mat matC)).isSome = true := by
      rw [hAC.1]
      decide
    simpa using this
  · exact hAB.2.2.2.1 (.product (.mat matA) (.mat matB)) (by decide)
      (by decide) (by decide)

/-- On a well-formed tree, an in-bounds root access only ever performs
in-bounds leaf reads. -/
theorem wf_safeAccess (e : MExpr α) :
    ∀ r c, e.wf = true → r < e.nrows → c < e.ncols →
      e.safeAccess r c = true := by
  induction e with
  | mat m =>
      intro r c hwf hr hc
      simp only [MExpr.wf, beq_iff_eq] at hwf
      simp only [MExpr.nrows_mat, MExpr.ncols_mat] at hr hc
      simp only [MExpr.safeAccess, decide_eq_true_eq]
      rw [hwf]
      exact rowMajor_offset_lt hr hc
  | transpose e ih =>
      intro r c hwf hr hc
      simp only [MExpr.wf] at hwf
      simp only [MExpr.nrows_transpose, MExpr.ncols_transpose] at hr hc
      simpa only [MExpr.safeAccess] using ih c r hwf hc hr
  | sum l r' ihl ihr =>
      intro r c hwf hr hc
      simp only [MExpr.wf, Bool.and_eq_true, beq_iff_eq] at hwf
      obtain ⟨⟨⟨hwl, hwr⟩, hnr⟩, hnc⟩ := hwf
      simp only [MExpr.nrows_sum, MExpr.ncols_sum] at hr hc
      simp only [MExpr.safeAccess, Bool.and_eq_true]
      exact ⟨ihl r c hwl hr hc, ihr r c hwr (hnr ▸ hr) (hnc ▸ hc)⟩
  | product l r' ihl ihr =>
      intro r c hwf hr hc
      simp only [MExpr.wf, Bool.and_eq_true, beq_iff_eq] at hwf
      obtain ⟨⟨hwl, hwr⟩, hlr⟩ := hwf
      simp only [MExpr.nrows_product, MExpr.ncols_product] at hr hc
      simp only [MExpr.safeAccess, List.all_eq_true, List.mem_range]
      intro i hi
      simp only [Bool.and_eq_true]
      exact ⟨ihl r i hwl hr hi, ihr i c hwr (hlr ▸ hi) hc⟩

/-- A fold of the strict (`Option`) dot-product loop agrees with the fold
of the total loop when every operand access up to the bound succeeds. -/
theorem foldl_range_bind_eq [Add α] [Mul α] [Zero α]
    (f g : Nat → Option α) (f' g' : Nat → α) (k : Nat)
    (hf : ∀ i, i < k → f i = some (f' i))
    (hg : ∀ i, i < k → g i = some (g' i)) :
    (List.range k).foldl
        (fun acc i => acc.bind fun s =>
          (f i).bind fun x => (g i).map fun y => s + x * y)
        (some 0)
      = some ((List.range k).foldl (fun s i => s + f' i * g' i) 0) := by
  induction k with
  | zero => simp
  | succ k ih =>
      rw [List.range_succ, List.foldl_append, List.foldl_append]
      rw [ih (fun i hi => hf i (Nat.lt_succ_of_lt hi))
        (fun i hi => hg i (Nat.lt_succ_of_lt hi))]
      simp [hf k (Nat.lt_succ_self k), hg k (Nat.lt_succ_self k)]

/-- On a well-formed tree, the strict evaluator (which errors on any
out-of-bounds leaf read) succeeds at every in-bounds root index and agrees
with the evaluator of the source. -/
theorem wf_uncheckedGetOpt [Inhabited α] [Add α] [Mul α] [Zero α]
    (e : MExpr α) :
    ∀ r c, e.wf = true → r < e.nrows → c < e.ncols →
      e.uncheckedGetOpt r c = some (e.uncheckedGet r c) := by
  induction e with
  | mat m =>
      intro r c hwf hr hc
      simp only [MExpr.wf, beq_iff_eq] at hwf
      simp only [MExpr.nrows_mat, MExpr.ncols_mat] at hr hc
      have hlt : r * m.ncols + c < m.buffer.length := by
        rw [hwf]; exact rowMajor_offset_lt hr hc
      simp only [MExpr.uncheckedGetOpt, MExpr.uncheckedGet, Mat.uncheckedGet]
      rw [List.getElem?_eq_getElem hlt]
      simp [List.getD_eq_getElem?_getD, List.getElem?_eq_getElem hlt]
  | transpose e ih =>
      intro r c hwf hr hc
      simp only [MExpr.wf] at hwf
      simp only [MExpr.nrows_transpose, MExpr.ncols_transpose] at hr hc
      simpa only [MExpr.uncheckedGetOpt, MExpr.uncheckedGet] using
        ih c r hwf hc hr
  | sum l r' ihl ihr =>
      intro r c hwf hr hc
      simp only [MExpr.wf, Bool.and_eq_true, beq_iff_eq] at hwf
      obtain ⟨⟨⟨hwl, hwr⟩, hnr⟩, hnc⟩ := hwf
      simp only [MExpr.nrows_sum, MExpr.ncols_sum] at hr hc
      simp only [MExpr.uncheckedGetOpt, MExpr.uncheckedGet]
      rw [ihl r c hwl hr hc, ihr r c hwr (hnr ▸ hr) (hnc ▸ hc)]
      rfl
  | product l r' ihl ihr =>
      intro r c hwf hr hc
      simp only [MExpr.wf, Bool.and_eq_true, beq_iff_eq] at hwf
      obtain ⟨⟨hwl, hwr⟩, hlr⟩ := hwf
      simp only [MExpr.nrows_product, MExpr.ncols_product] at hr hc
      simp only [MExpr.uncheckedGetOpt, MExpr.uncheckedGet]
      exact foldl_range_bind_eq _ _ _ _ l.ncols
        (fun i hi => ihl r i hwl hr hi)
        (fun i hi => ihr i c hwr (hlr ▸ hi) hc)

/-- C9: memory safety of the recursive evaluation: on every well-formed
tree and every in-bounds root index, all unchecked reads performed during
`get` stay inside the dense leaf buffers (`safeAccess`), and the strict
evaluator that fails on any out-of-bounds leaf read succeeds and computes
the very same element — the checked `get` never exhibits undefined
behavior. -/
theorem checked_get_safe [Inhabited α] [Add α] [Mul α] [Zero α]
    (e : MExpr α) (r c : Nat) (hwf : e.wf = true)
    (hr : r < e.nrows) (hc : c < e.ncols) :
    e.safeAccess r c = true ∧
    e.uncheckedGetOpt r c = some (e.uncheckedGet r c) :=
  ⟨wf_safeAccess e r c hwf hr hc, wf_uncheckedGetOpt e r c hwf hr hc⟩

/-- Witness for C9 at a concrete input: the tree
`(matA * matB) + matC.t()` evaluated at (1, 1). -/
theorem checked_get_safe_witness :
    MExpr.safeAccess
        (.sum (.product (.mat matA) (.mat matB)) (MExpr.mat matC).t) 1 1
      = true ∧
    MExpr.uncheckedGetOpt
        (.sum (.product (.mat matA) (.mat matB)) (MExpr.mat matC).t) 1 1
      = some (MExpr.uncheckedGet
          (.sum (.product (.mat matA) (.mat matB)) (MExpr.mat matC).t) 1 1) :=
  checked_get_safe (.sum (.product (.mat matA) (.mat matB)) (MExpr.mat matC).t)
    1 1 (by decide) (by decide) (by decide)

/-- C10: the row-view sugar agrees with the checked accessor: on a dense
matrix with a well-formed buffer, `m[r][c]` returns the element `get(r, c)`
returns; `m[r]` fails fatally (is `none`) when `r ≥ nrows`; and indexing
the returned row handle fails fatally when `c ≥ ncols`. -/
theorem row_indexing_get [Inhabited α] [Add α] [Mul α] [Zero α]
    (m : Mat α) (r c : Nat)
    (hwf : m.buffer.length = m.nrows * m.ncols) :
    (r < m.nrows → c < m.ncols →
      ((m.index r).bind fun row => row.index c) = MExpr.get (.mat m) r c) ∧
    (m.nrows ≤ r → m.index r = none) ∧
    (∀ row, m.index r = some row → m.ncols ≤ c → row.index c = none) := by
  refine ⟨?_, ?_, ?_⟩
  · intro hr hc
    have hlt : r * m.ncols + c < m.buffer.length := by
      rw [hwf]; exact rowMajor_offset_lt hr hc
    simp [Mat.index, if_pos hr, Row.index, if_pos hc, MExpr.get, hr, hc,
      MExpr.uncheckedGet, Mat.uncheckedGet, List.getD_eq_getElem?_getD,
      List.getElem?_take_of_lt hc, List.getElem?_drop]
  · intro hr
    simp [Mat.index, Nat.not_lt.mpr hr]
  · intro row hrow hc
    by_cases h : r < m.nrows
    · simp only [Mat.index, if_pos h, Option.some.injEq] at hrow
      subst hrow
      simp [Row.index, Nat.not_lt.mpr hc]
    · simp [Mat.index, if_neg h] at hrow

/-- Witness for C10 at concrete inputs: `matA[1][2]` equals
`matA.get(1, 2)`, and `matA[2]` fails (only rows 0 and 1 exist). -/
theorem row_indexing_get_witness :
    ((matA.index 1).bind fun row => row.index 2) = MExpr.get (.mat matA) 1 2 ∧
    matA.index 2 = none :=
  ⟨(row_indexing_get matA 1 2 rfl).1 (by decide) (by decide),
    (row_indexing_get matA 2 0 rfl).2.1 (by decide)⟩

/-- Whether a 2D literal is rectangular: every row has the element count
of the first row. -/
def rectangular : List (List α) → Bool
  | [] => true
  | r0 :: rest => rest.all (fun row => row.length == r0.length)

/-- Models an expansion of the `mat!` macro_rules macro (for an element
type of nonzero size, such as `i32`): `NROWS` counts the rows, `NELEMS`
counts all elements, `NCOLS = NELEMS / NROWS` by the floored typenum `Quot`,
and the expansion transmutes the flattened `[T; NELEMS]` array into
`Mat<T, NROWS, NCOLS>`; the transmute compiles exactly when the two sizes
agree, i.e. when `NELEMS = NROWS * NCOLS`, and a failed transmute is a
build-time error (`none`). -/
def matMacroRules (rows : List (List α)) : Option (Mat α) :=
  let nr := rows.length
  let nelems := rows.flatten.length
  let nc := nelems / nr
  if nelems = nr * nc then some ⟨nr, nc, rows.flatten⟩ else none

/-- Models the diagnostics of the proc-macro frontend (`macros/src/lib.rs`):
one "expected NCOLS elements" error is emitted per element at position
`≥ ncols` in any row, where `ncols` is the element count of the first row;
rows
shorter than the first emit nothing. -/
def procMacroDiagnostics : List (List α) → Nat
  | [] => 0
  | r0 :: rest => ((r0 :: rest).map (fun row => row.length - r0.length)).sum

/-- Models the proc-macro frontend as a whole: `ncols` is taken from the
first row and the emitted code builds a `Mat` from the flattened elements;
the build succeeds when no diagnostic was emitted and the flattened element
count equals `nrows * ncols` (otherwise the generated array literal has the
wrong length and the expansion is a build-time type error). -/
def procMacroMat (rows : List (List α)) : Option (Mat α) :=
  match rows with
  | [] => none
  | r0 :: rest =>
      if procMacroDiagnostics (r0 :: rest) = 0 ∧
          (r0 :: rest).flatten.length = (r0 :: rest).length * r0.length then
        some ⟨(r0 :: rest).length, r0.length, (r0 :: rest).flatten⟩
      else none

/-- A list of naturals sums to zero exactly when every entry is zero. -/
theorem natList_sum_eq_zero_iff (l : List Nat) :
    l.sum = 0 ↔ ∀ x ∈ l, x = 0 := by
  induction l with
  | nil => simp
  | cons a t ih =>
      simp only [List.sum_cons, List.mem_cons, Nat.add_eq_zero]
      constructor
      · rintro ⟨ha, ht⟩ x hx
        rcases hx with rfl | hx
        · exact ha
        · exact (ih.mp ht) x hx
      · intro h
        exact ⟨h a (Or.inl rfl), ih.mpr fun x hx => h x (Or.inr hx)⟩

/-- A list of naturals that are all equal to `k` sums to `length * k`. -/
theorem natList_sum_const (l : List Nat) (k : Nat) (h : ∀ x ∈ l, x = k) :
    l.sum = l.length * k := by
  induction l with
  | nil => simp
  | cons a t ih =>
      have ha : a = k := h a (List.mem_cons_self a t)
      have ht := ih fun x hx => h x (List.mem_cons_of_mem a hx)
      simp only [List.sum_cons, List.length_cons, ha, ht]
      ring

/-- C8 counterexample: the non-rectangular literal [[1,2,3],[3]] is
accepted by the `mat!` macro_rules expansion (4 elements over 2 rows give
`NCOLS = 4/2 = 2` and the transmute sizes agree) and produces a usable,
well-formed 2-by-2 matrix whose elements are readable through `get` — it
does not fail at build time. -/
theorem mat_macro_ragged_counterexample :
    rectangular ([[1, 2, 3], [3]] : List (List Int)) = false ∧
    matMacroRules ([[1, 2, 3], [3]] : List (List Int))
      = some ⟨2, 2, [1, 2, 3, 3]⟩ ∧
    MExpr.wf (.mat (⟨2, 2, [1, 2, 3, 3]⟩ : Mat Int)) = true ∧
    MExpr.get (.mat (⟨2, 2, [1, 2, 3, 3]⟩ : Mat Int)) 1 1 = some 3 := by
  refine ⟨rfl, rfl, rfl, ?_⟩
  decide

/-- C8 amended: the macro_rules `mat!` accepts a literal exactly when the
total element count is divisible by the row count — so a non-rectangular
literal whose total is not such a multiple (e.g. [[1,2],[3]]) fails at
build time and never produces a matrix, every rectangular literal is
accepted, but a ragged literal with a divisible total is accepted too and
yields a usable well-formed matrix with `ncols = total / rows`; the
proc-macro frontend emits its "expected N elements" dimension diagnostic
exactly when some row is longer than the first, never for shorter rows. -/
theorem mat_macro_amended (rows : List (List α)) :
    ((matMacroRules rows).isSome = true ↔
      rows.length ∣ rows.flatten.length) ∧
    (∀ mm, matMacroRules rows = some mm →
      mm.nrows = rows.length ∧ mm.ncols = rows.flatten.length / rows.length ∧
      MExpr.wf (.mat mm) = true) ∧
    (rectangular rows = true → (matMacroRules rows).isSome = true) ∧
    (∀ r0 rest, rows = r0 :: rest →
      (procMacroDiagnostics rows = 0 ↔
        ∀ row ∈ rows, row.length ≤ r0.length)) := by
  have hchar : (matMacroRules rows).isSome = true ↔
      rows.length ∣ rows.flatten.length := by
    by_cases h : rows.flatten.length
        = rows.length * (rows.flatten.length / rows.length)
    · simp only [matMacroRules, if_pos h, Option.isSome_some, true_iff]
      exact Dvd.intro _ h.symm
    · simp only [matMacroRules, if_neg h, Option.isSome_none]
      constructor
      · intro hs
        exact absurd hs Bool.false_ne_true
      · intro hdvd
        exact absurd (Nat.mul_div_cancel' hdvd).symm h
  refine ⟨hchar, ?_, ?_, ?_⟩
  · intro mm hmm
    simp only [matMacroRules] at hmm
    split at hmm
    · next hguard =>
        injection hmm with heq
        subst heq
        exact ⟨rfl, rfl, by simp only [MExpr.wf, beq_iff_eq]; exact hguard⟩
    · next => exact absurd hmm (by simp)
  · intro hrect
    rw [hchar]
    match rows, hrect with
    | [], _ => simp
    | r0 :: rest, hrect =>
        have hall : ∀ x ∈ (r0 :: rest).map List.length, x = r0.length := by
          intro x hx
          simp only [List.map_cons, List.mem_cons, List.mem_map] at hx
          rcases hx with rfl | ⟨row, hrow, rfl⟩
          · rfl
          · have := List.all_eq_true.mp hrect row hrow
            simpa [beq_iff_eq] using this
        have hlen : (r0 :: rest).flatten.length
            = (r0 :: rest).length * r0.length := by
          rw [List.length_flatten,
            natList_sum_const ((r0 :: rest).map List.length) r0.length hall]
          simp
        exact ⟨r0.length, hlen⟩
  · rintro r0 rest rfl
    simp only [procMacroDiagnostics,
      natList_sum_eq_zero_iff ((r0 :: rest).map fun row => row.length - r0.length)]
    constructor
    · intro h row hrow
      have := h (row.length - r0.length) (List.mem_map_of_mem _ hrow)
      omega
    · intro h x hx
      obtain ⟨row, hrow, rfl⟩ := List.mem_map.mp hx
      have := h row hrow
      omega

/-- Witness for the amended claim C8 at the example of the spec: [[1,2],[3]]
(3 elements over 2 rows) is rejected by `mat!` at build time, and the
proc-macro frontend emits no dimension diagnostic for it (its second row is
shorter than the first, a case its check does not cover). -/
theorem mat_macro_amended_witness :
    (matMacroRules ([[1, 2], [3]] : List (List Int))).isSome = false ∧
    procMacroDiagnostics ([[1, 2], [3]] : List (List Int)) = 0 := by
  constructor
  · have h := (mat_macro_amended ([[1, 2], [3]] : List (List Int))).1
    have hnd : ¬ ([[1, 2], [3]] : List (List Int)).length
        ∣ ([[1, 2], [3]] : List (List Int)).flatten.length := by decide
    exact Bool.eq_false_iff.mpr fun hs => hnd (h.mp hs)
  · exact ((mat_macro_amended ([[1, 2], [3]] : List (List Int))).2.2.2
      [1, 2] [[3]] rfl).mpr (by decide)

end MatVerify
